import Mathlib

/-!
Verification of the core operations of a lazy-iteration library
(`combinations`, `combinationsWithReplacement`, `groupBy`, `islice`,
`zip` / `zipLongest`) against their natural-language specification.

The TypeScript generators are shallowly embedded as pure Lean functions:
finite sources become `List`s, a generator's complete pull trace becomes the
list of its yields, JavaScript's `undefined` placeholder becomes `Option.none`,
thrown `TypeError`s become `Except.error`, and the shared mutable cursor of
`groupBy` becomes an explicit state record threaded through the step
functions.  Unbounded `for (;;)` loops are embedded with an explicit fuel
parameter counting loop iterations; the correctness lemmas hold for every
sufficiently large fuel, which shows the loops terminate on their own.
-/

namespace Itertools

/-! ## The index-advancement loop shared by the combinatorial enumerators

Both `combinations` and `combinationsWithReplacement` run the same
`for (;;)` loop: yield the current index tuple, then try to advance it in
place, stopping when no position can be advanced.  They differ only in the
advancement rule, so the loop is embedded once, parameterised by the step.
-/

/-- Downward search mirroring the source's
`for (let i = r - 1; i >= 0; i--) if (p i) break`: the first index below
the bound, scanning downward, that satisfies the predicate. -/
def findBreakAux (p : Nat → Bool) : Nat → Option Nat
  | 0 => none
  | i + 1 => if p i then some i else findBreakAux p i

/-- The source's `for (;;) { yield indicies...; advance or break }` loop:
yields the current index tuple, then either advances it with `step` or
terminates.  `fuel` bounds the number of iterations; every theorem below is
insensitive to the exact fuel once it is large enough. -/
def genLoop (step : List Nat → Option (List Nat)) : Nat → List Nat → List (List Nat)
  | 0, _ => []
  | fuel + 1, ind =>
    ind ::
      match step ind with
      | none => []
      | some ind' => genLoop step fuel ind'

/-- `IsRun step l` says `l` is a complete orbit of `step`: consecutive
elements are related by `step` and the last element has no successor. -/
def IsRun (step : List Nat → Option (List Nat)) : List (List Nat) → Prop
  | [] => False
  | [c] => step c = none
  | c :: c' :: rest => step c = some c' ∧ IsRun step (c' :: rest)

theorem isRun_cons_cons {step : List Nat → Option (List Nat)} {c c' : List Nat}
    {rest : List (List Nat)} :
    IsRun step (c :: c' :: rest) ↔ step c = some c' ∧ IsRun step (c' :: rest) := Iff.rfl

/-- If the loop's output is strictly shorter than the fuel, the loop stopped
on its own: the output is a complete orbit starting at the initial tuple. -/
theorem isRun_of_genLoop {step : List Nat → Option (List Nat)} :
    ∀ {fuel : Nat} {c : List Nat} {S : List (List Nat)},
      genLoop step fuel c = S → S.length < fuel → IsRun step S ∧ S.head? = some c := by
  intro fuel
  induction fuel with
  | zero => intro c S h hlen; simp at hlen
  | succ fuel ih =>
    intro c S h hlen
    cases hstep : step c with
    | none =>
      subst h
      simp only [genLoop, hstep]
      exact ⟨hstep, rfl⟩
    | some c' =>
      subst h
      simp only [genLoop, hstep] at hlen ⊢
      have hlen' : (genLoop step fuel c').length < fuel := by
        simpa using Nat.lt_of_succ_lt_succ hlen
      obtain ⟨hrun, hhead⟩ := ih rfl hlen'
      cases hS' : genLoop step fuel c' with
      | nil => simp [hS'] at hhead
      | cons d rest =>
        rw [hS'] at hhead hrun
        simp only [List.head?] at hhead
        obtain rfl : d = c' := by simpa using hhead
        exact ⟨⟨hstep, hrun⟩, rfl⟩

/-! ## `combinations` (src/combinations.ts, lines 26-55) -/

/-- One advancement of the index tuple of `combinations`: find the rightmost
position `i` whose value differs from its maximum `i + n - r`
(the source's downward `for` loop with `break`); if none exists the loop
terminates, otherwise that position is incremented and every position to its
right is reset to consecutive values above its left neighbour
(`indicies[j] = indicies[j - 1] + 1`).  The enclosing call guarantees
`r ≤ n`, so the natural subtraction in `i + n - r` agrees with the source's
integer arithmetic. -/
def combStep (n r : Nat) (ind : List Nat) : Option (List Nat) :=
  match findBreakAux (fun i => ind.getD i 0 != i + n - r) r with
  | none => none
  | some i => some (ind.take i ++ List.range' (ind.getD i 0 + 1) (r - i))

/-- `combinations` on index level: snapshot length `n`, tuple arity `r`.
The source returns immediately when `r > n`; otherwise the index tuple is
initialised to `[0, 1, ..., r-1]` and advanced by `combStep` until exhausted.
`Nat.choose n r + 1` iterations of fuel are provably more than the loop
uses (see `genLoop_combStep_eq_combsFrom`). -/
def combinationsIndices (n r : Nat) : List (List Nat) :=
  if r > n then []
  else genLoop (combStep n r) (Nat.choose n r + 1) (List.range r)

/-- `combinations(iterable, r)`: the yielded tuples are the snapshot values at
the successive index tuples (`indicies.map((i) => saved[i])`). -/
def combinations {α : Type _} [Inhabited α] (l : List α) (r : Nat) : List (List α) :=
  (combinationsIndices l.length r).map fun ind => ind.map fun i => l.getD i default

/-- Specification side: all strictly increasing `r`-tuples over `[lo, n)` in
lexicographic order, defined by structural recursion on the arity. -/
def combsFrom (n : Nat) : Nat → Nat → List (List Nat)
  | 0, _ => [[]]
  | r + 1, lo =>
    (List.range' lo (n - lo)).flatMap fun i =>
      (combsFrom n r (i + 1)).map fun c => i :: c

/-! ### Stepping lemmas: `combStep` on a tuple `i :: c` mirrors `combStep`
on the tail `c` with arity one lower, until the tail is exhausted. -/

theorem findBreakAux_shift (p q : Nat → Bool) (hpq : ∀ j, q j = p (j + 1)) :
    ∀ r, findBreakAux p (r + 1) =
      match findBreakAux q r with
      | some j => some (j + 1)
      | none => if p 0 then some 0 else none := by
  intro r
  induction r with
  | zero => simp [findBreakAux]
  | succ r ih =>
    by_cases hp : p (r + 1)
    · have hq : q r = true := by rw [hpq]; exact hp
      show (if p (r + 1) then some (r + 1) else findBreakAux p (r + 1)) = _
      rw [if_pos hp, show findBreakAux q (r + 1) = if q r then some r else findBreakAux q r
        from rfl, if_pos hq]
    · have hq : q r = false := by rw [hpq]; simpa using hp
      show (if p (r + 1) then some (r + 1) else findBreakAux p (r + 1)) = _
      have hR : findBreakAux q (r + 1) = findBreakAux q r := by
        show (if q r then some r else findBreakAux q r) = _
        simp [hq]
      rw [if_neg hp, ih, hR]

theorem combStep_cons_of_some {n r : Nat} {c c' : List Nat} (i : Nat)
    (h : combStep n r c = some c') :
    combStep n (r + 1) (i :: c) = some (i :: c') := by
  unfold combStep at h ⊢
  rw [findBreakAux_shift (fun j => (i :: c).getD j 0 != j + n - (r + 1))
      (fun j => c.getD j 0 != j + n - r)
      (by
        intro j
        show (c.getD j 0 != j + n - r) = ((i :: c).getD (j + 1) 0 != (j + 1) + n - (r + 1))
        have h1 : j + 1 + n - (r + 1) = j + n - r := by omega
        rw [List.getD_cons_succ, h1])]
  cases hfind : findBreakAux (fun j => c.getD j 0 != j + n - r) r with
  | none => rw [hfind] at h; exact absurd h (by simp)
  | some j =>
    rw [hfind] at h
    simp only [Option.some.injEq] at h
    simp [← h, Nat.succ_sub_succ]

theorem combStep_cons_of_none {n r : Nat} {c : List Nat} (i : Nat)
    (h : combStep n r c = none) :
    combStep n (r + 1) (i :: c) =
      if i = n - (r + 1) then none else some (List.range' (i + 1) (r + 1)) := by
  unfold combStep at h ⊢
  rw [findBreakAux_shift (fun j => (i :: c).getD j 0 != j + n - (r + 1))
      (fun j => c.getD j 0 != j + n - r)
      (by
        intro j
        show (c.getD j 0 != j + n - r) = ((i :: c).getD (j + 1) 0 != (j + 1) + n - (r + 1))
        have h1 : j + 1 + n - (r + 1) = j + n - r := by omega
        rw [List.getD_cons_succ, h1])]
  cases hfind : findBreakAux (fun j => c.getD j 0 != j + n - r) r with
  | some j => rw [hfind] at h; exact absurd h (by simp)
  | none =>
    by_cases hi : i = n - (r + 1)
    · simp [hi]
    · simp [hi, List.getD]

/-! ### Structural lemmas about the specification list `combsFrom` -/

theorem combsFrom_peel {n r lo : Nat} (h : lo < n) :
    combsFrom n (r + 1) lo =
      ((combsFrom n r (lo + 1)).map fun c => lo :: c) ++ combsFrom n (r + 1) (lo + 1) := by
  show (List.range' lo (n - lo)).flatMap _ = _
  rw [show n - lo = (n - lo - 1) + 1 by omega, List.range'_succ, List.flatMap_cons]
  congr 1

theorem combsFrom_eq_nil {n : Nat} : ∀ {r lo : Nat}, n - lo < r → combsFrom n r lo = [] := by
  intro r
  induction r with
  | zero => intro lo h; omega
  | succ r ih =>
    intro lo h
    show (List.range' lo (n - lo)).flatMap _ = _
    rw [List.flatMap_eq_nil_iff]
    intro i hi
    rw [List.mem_range'] at hi
    obtain ⟨k, hk, rfl⟩ := hi
    rw [ih (by omega)]
    rfl

theorem combsFrom_length {n : Nat} : ∀ r lo : Nat,
    (combsFrom n r lo).length = Nat.choose (n - lo) r := by
  suffices H : ∀ μ r lo, r + (n - lo) ≤ μ →
      (combsFrom n r lo).length = Nat.choose (n - lo) r by
    intro r lo; exact H (r + (n - lo)) r lo le_rfl
  intro μ
  induction μ with
  | zero =>
    intro r lo h
    obtain rfl : r = 0 := by omega
    simp [combsFrom]
  | succ μ ih =>
    intro r lo hμ
    cases r with
    | zero => simp [combsFrom]
    | succ r =>
      by_cases hlo : lo < n
      · rw [combsFrom_peel hlo, List.length_append, List.length_map,
          ih r (lo + 1) (by omega), ih (r + 1) (lo + 1) (by omega),
          show n - lo = (n - (lo + 1)) + 1 by omega, Nat.choose_succ_succ]
      · rw [combsFrom_eq_nil (by omega)]
        rw [show n - lo = 0 by omega]
        simp [Nat.choose_eq_zero_of_lt]

theorem combsFrom_mem {n : Nat} : ∀ {r lo : Nat} {c : List Nat}, c ∈ combsFrom n r lo →
    c.length = r ∧ c.Chain' (· < ·) ∧ ∀ x ∈ c, lo ≤ x ∧ x < n := by
  intro r
  induction r with
  | zero =>
    intro lo c hc
    obtain rfl : c = [] := by simpa [combsFrom] using hc
    simp
  | succ r ih =>
    intro lo c hc
    obtain ⟨i, hi, c', hc', rfl⟩ : ∃ i ∈ List.range' lo (n - lo), ∃ c' ∈ combsFrom n r (i + 1),
        i :: c' = c := by
      simpa [combsFrom, List.mem_flatMap] using hc
    rw [List.mem_range'] at hi
    obtain ⟨k, hk, rfl⟩ := hi
    obtain ⟨hlen, hchain, hbound⟩ := ih hc'
    refine ⟨by simp [hlen], ?_, ?_⟩
    · rw [List.chain'_cons']
      refine ⟨?_, hchain⟩
      intro y hy
      have hy' : y ∈ c' := List.mem_of_mem_head? hy
      have := hbound y hy'
      omega
    · intro x hx
      rcases List.mem_cons.mp hx with rfl | hx'
      · omega
      · have := hbound x hx'
        omega

theorem combsFrom_sorted {n : Nat} : ∀ r lo : Nat,
    (combsFrom n r lo).Pairwise (List.Lex (· < ·)) := by
  suffices H : ∀ μ r lo, r + (n - lo) ≤ μ →
      (combsFrom n r lo).Pairwise (List.Lex (· < ·)) by
    intro r lo; exact H (r + (n - lo)) r lo le_rfl
  intro μ
  induction μ with
  | zero =>
    intro r lo h
    obtain rfl : r = 0 := by omega
    simp [combsFrom]
  | succ μ ih =>
    intro r lo hμ
    cases r with
    | zero => simp [combsFrom]
    | succ r =>
      by_cases hlo : lo < n
      · rw [combsFrom_peel hlo, List.pairwise_append]
        refine ⟨?_, ih (r + 1) (lo + 1) (by omega), ?_⟩
        · rw [List.pairwise_map]
          exact (ih r (lo + 1) (by omega)).imp fun h => List.Lex.cons h
        · intro a ha b hb
          obtain ⟨a', _, rfl⟩ := List.mem_map.mp ha
          obtain ⟨hblen, _, hbbound⟩ := combsFrom_mem hb
          cases b with
          | nil => simp at hblen
          | cons y b' =>
            have hy := hbbound y (by simp)
            exact List.Lex.rel (by omega)
      · rw [combsFrom_eq_nil (by omega)]
        exact List.Pairwise.nil

/-! ### The loop walks the specification list -/

/-- Lifting a complete orbit of the arity-`r` step under a fixed head `i`:
the arity-`r + 1` loop replays the orbit with `i` consed on, then either
stops (if `i` is at its maximum) or restarts at the tuple
`[i+1, i+2, ...]`. -/
theorem genLoop_combStep_walk (n r : Nat) :
    ∀ (rest : List (List Nat)) (c : List Nat), IsRun (combStep n r) (c :: rest) →
      ∀ (i f : Nat),
        genLoop (combStep n (r + 1)) ((c :: rest).length + f) (i :: c) =
          ((c :: rest).map fun t => i :: t) ++
            (if i = n - (r + 1) then []
             else genLoop (combStep n (r + 1)) f (List.range' (i + 1) (r + 1))) := by
  intro rest
  induction rest with
  | nil =>
    intro c hrun i f
    have hnone : combStep n r c = none := hrun
    rw [show ([c].length + f) = f + 1 by simp [Nat.add_comm]]
    show (i :: c) :: _ = _
    rw [combStep_cons_of_none i hnone]
    by_cases hi : i = n - (r + 1)
    · simp [hi]
    · simp [hi]
  | cons c' rest ih =>
    intro c hrun i f
    obtain ⟨hstep, hrun'⟩ := (isRun_cons_cons).mp hrun
    rw [show ((c :: c' :: rest).length + f) = ((c' :: rest).length + f) + 1 by simp; omega]
    show (i :: c) :: _ = _
    rw [combStep_cons_of_some i hstep]
    show (i :: c) :: genLoop (combStep n (r + 1)) ((c' :: rest).length + f) (i :: c') = _
    rw [ih c' hrun' i f]
    simp

/-- Master correspondence: with any sufficient fuel, the `combinations` loop
started at `[lo, lo+1, ..., lo+r-1]` produces exactly the lexicographic
enumeration `combsFrom n r lo`.  Holding for every extra fuel `f`, it also
shows the loop stops on its own. -/
theorem genLoop_combStep_eq_combsFrom (n : Nat) : ∀ r lo f : Nat, lo + r ≤ n →
    genLoop (combStep n r) ((combsFrom n r lo).length + f) (List.range' lo r) =
      combsFrom n r lo := by
  suffices H : ∀ μ r lo f, r + (n - lo) ≤ μ → lo + r ≤ n →
      genLoop (combStep n r) ((combsFrom n r lo).length + f) (List.range' lo r) =
        combsFrom n r lo by
    intro r lo f h; exact H (r + (n - lo)) r lo f le_rfl h
  intro μ
  induction μ with
  | zero =>
    intro r lo f hμ h
    obtain rfl : r = 0 := by omega
    rw [show (combsFrom n 0 lo).length + f = f + 1 by simp [combsFrom, Nat.add_comm]]
    rfl
  | succ μ ih =>
    intro r lo f hμ h
    cases r with
    | zero =>
      rw [show (combsFrom n 0 lo).length + f = f + 1 by simp [combsFrom, Nat.add_comm]]
      rfl
    | succ r =>
      have hlo : lo < n := by omega
      have hS := ih r (lo + 1) 1 (by omega) (by omega)
      obtain ⟨hrun, hhead⟩ := isRun_of_genLoop hS (by omega)
      cases hScases : combsFrom n r (lo + 1) with
      | nil => rw [hScases] at hhead; simp at hhead
      | cons c rest =>
        rw [hScases] at hrun hhead
        have hc : c = List.range' (lo + 1) r := by simpa using hhead
        have hpeel := @combsFrom_peel n r lo hlo
        have hfuel : (combsFrom n (r + 1) lo).length + f =
            (c :: rest).length + ((combsFrom n (r + 1) (lo + 1)).length + f) := by
          rw [hpeel, List.length_append, List.length_map, hScases]
          omega
        rw [hfuel, List.range'_succ, ← hc,
          genLoop_combStep_walk n r rest c hrun lo ((combsFrom n (r + 1) (lo + 1)).length + f),
          hpeel, hScases]
        by_cases hboundary : lo = n - (r + 1)
        · rw [if_pos hboundary, @combsFrom_eq_nil n (r + 1) (lo + 1) (by omega)]
        · rw [if_neg hboundary, ih (r + 1) (lo + 1) f (by omega) (by omega)]

/-- With `r ≤ n`, the index-level `combinations` output is exactly the
lexicographic enumeration of strictly increasing index tuples. -/
theorem combinationsIndices_eq {n r : Nat} (h : r ≤ n) :
    combinationsIndices n r = combsFrom n r 0 := by
  unfold combinationsIndices
  rw [if_neg (by omega), List.range_eq_range',
    show Nat.choose n r + 1 = (combsFrom n r 0).length + 1 by
      rw [combsFrom_length]; simp]
  exact genLoop_combStep_eq_combsFrom n r 0 1 (by omega)

/-! ## `combinationsWithReplacement` (src/combinations.ts, lines 74-104) -/

/-- One advancement of the index tuple of `combinationsWithReplacement`:
find the rightmost position whose value differs from `n - 1`; increment it
and copy the new value into every position to its right
(`indicies[j] = indicies[j - 1]`).  The enclosing call returns early when
`n = 0` (unless `r = 0`, where the index tuple is empty and this step is
never consulted on a position), so `n - 1` here is the source's `n - 1`. -/
def cwrStep (n r : Nat) (ind : List Nat) : Option (List Nat) :=
  match findBreakAux (fun i => ind.getD i 0 != n - 1) r with
  | none => none
  | some i => some (ind.take i ++ List.replicate (r - i) (ind.getD i 0 + 1))

/-- `combinationsWithReplacement` on index level: the source returns
immediately when `n = 0` and `r ≠ 0`; otherwise the index tuple starts at
`[0, 0, ..., 0]` (`Array(r).fill(0)`) and is advanced by `cwrStep`. -/
def cwrIndices (n r : Nat) : List (List Nat) :=
  if n = 0 ∧ r ≠ 0 then []
  else genLoop (cwrStep n r) (Nat.choose (n + r - 1) r + 1) (List.replicate r 0)

/-- `combinationsWithReplacement(iterable, r)`: the yielded tuples are the
snapshot values at the successive index tuples. -/
def combinationsWithReplacement {α : Type _} [Inhabited α] (l : List α) (r : Nat) :
    List (List α) :=
  (cwrIndices l.length r).map fun ind => ind.map fun i => l.getD i default

/-- Specification side: all non-decreasing `r`-tuples over `[lo, n)` in
lexicographic order. -/
def cwrFrom (n : Nat) : Nat → Nat → List (List Nat)
  | 0, _ => [[]]
  | r + 1, lo =>
    (List.range' lo (n - lo)).flatMap fun i =>
      (cwrFrom n r i).map fun c => i :: c

theorem cwrStep_cons_of_some {n r : Nat} {c c' : List Nat} (i : Nat)
    (h : cwrStep n r c = some c') :
    cwrStep n (r + 1) (i :: c) = some (i :: c') := by
  unfold cwrStep at h ⊢
  rw [findBreakAux_shift (fun j => (i :: c).getD j 0 != n - 1)
      (fun j => c.getD j 0 != n - 1)
      (by
        intro j
        show (c.getD j 0 != n - 1) = ((i :: c).getD (j + 1) 0 != n - 1)
        rw [List.getD_cons_succ])]
  cases hfind : findBreakAux (fun j => c.getD j 0 != n - 1) r with
  | none => rw [hfind] at h; exact absurd h (by simp)
  | some j =>
    rw [hfind] at h
    simp only [Option.some.injEq] at h
    simp [← h, Nat.succ_sub_succ]

theorem cwrStep_cons_of_none {n r : Nat} {c : List Nat} (i : Nat)
    (h : cwrStep n r c = none) :
    cwrStep n (r + 1) (i :: c) =
      if i = n - 1 then none else some (List.replicate (r + 1) (i + 1)) := by
  unfold cwrStep at h ⊢
  rw [findBreakAux_shift (fun j => (i :: c).getD j 0 != n - 1)
      (fun j => c.getD j 0 != n - 1)
      (by
        intro j
        show (c.getD j 0 != n - 1) = ((i :: c).getD (j + 1) 0 != n - 1)
        rw [List.getD_cons_succ])]
  cases hfind : findBreakAux (fun j => c.getD j 0 != n - 1) r with
  | some j => rw [hfind] at h; exact absurd h (by simp)
  | none =>
    by_cases hi : i = n - 1
    · simp [hi]
    · simp [hi, List.getD]

/-! ### Structural lemmas about the specification list `cwrFrom` -/

theorem cwrFrom_peel {n r lo : Nat} (h : lo < n) :
    cwrFrom n (r + 1) lo =
      ((cwrFrom n r lo).map fun c => lo :: c) ++ cwrFrom n (r + 1) (lo + 1) := by
  show (List.range' lo (n - lo)).flatMap _ = _
  rw [show n - lo = (n - lo - 1) + 1 by omega, List.range'_succ, List.flatMap_cons]
  congr 1

theorem cwrFrom_eq_nil {n : Nat} {r lo : Nat} (hr : r ≠ 0) (hlo : n ≤ lo) :
    cwrFrom n r lo = [] := by
  cases r with
  | zero => omega
  | succ r =>
    show (List.range' lo (n - lo)).flatMap _ = _
    rw [show n - lo = 0 by omega]
    rfl

theorem cwrFrom_length {n : Nat} : ∀ r lo : Nat, lo < n →
    (cwrFrom n r lo).length = Nat.choose (n - lo - 1 + r) r := by
  suffices H : ∀ μ r lo, r + (n - lo) ≤ μ → lo < n →
      (cwrFrom n r lo).length = Nat.choose (n - lo - 1 + r) r by
    intro r lo h; exact H (r + (n - lo)) r lo le_rfl h
  intro μ
  induction μ with
  | zero => intro r lo hμ h; omega
  | succ μ ih =>
    intro r lo hμ hlo
    cases r with
    | zero => simp [cwrFrom]
    | succ r =>
      rw [cwrFrom_peel hlo, List.length_append, List.length_map,
        ih r lo (by omega) hlo]
      by_cases hlo1 : lo + 1 < n
      · rw [ih (r + 1) (lo + 1) (by omega) hlo1,
          show n - lo - 1 + (r + 1) = (n - (lo + 1) - 1 + (r + 1)) + 1 by omega,
          Nat.choose_succ_succ,
          show n - (lo + 1) - 1 + (r + 1) = n - lo - 1 + r by omega]
      · rw [cwrFrom_eq_nil (by omega) (by omega)]
        have h1 : n - lo - 1 = 0 := by omega
        simp [h1]


theorem cwrFrom_mem {n : Nat} : ∀ {r lo : Nat} {c : List Nat}, c ∈ cwrFrom n r lo →
    c.length = r ∧ c.Chain' (· ≤ ·) ∧ ∀ x ∈ c, lo ≤ x ∧ x < n := by
  intro r
  induction r with
  | zero =>
    intro lo c hc
    obtain rfl : c = [] := by simpa [cwrFrom] using hc
    simp
  | succ r ih =>
    intro lo c hc
    obtain ⟨i, hi, c', hc', rfl⟩ : ∃ i ∈ List.range' lo (n - lo), ∃ c' ∈ cwrFrom n r i,
        i :: c' = c := by
      simpa [cwrFrom, List.mem_flatMap] using hc
    rw [List.mem_range'] at hi
    obtain ⟨k, hk, rfl⟩ := hi
    obtain ⟨hlen, hchain, hbound⟩ := ih hc'
    refine ⟨by simp [hlen], ?_, ?_⟩
    · rw [List.chain'_cons']
      refine ⟨?_, hchain⟩
      intro y hy
      have hy' : y ∈ c' := List.mem_of_mem_head? hy
      have := hbound y hy'
      omega
    · intro x hx
      rcases List.mem_cons.mp hx with rfl | hx'
      · omega
      · have := hbound x hx'
        omega

theorem cwrFrom_sorted {n : Nat} : ∀ r lo : Nat,
    (cwrFrom n r lo).Pairwise (List.Lex (· < ·)) := by
  suffices H : ∀ μ r lo, r + (n - lo) ≤ μ →
      (cwrFrom n r lo).Pairwise (List.Lex (· < ·)) by
    intro r lo; exact H (r + (n - lo)) r lo le_rfl
  intro μ
  induction μ with
  | zero =>
    intro r lo h
    obtain rfl : r = 0 := by omega
    simp [cwrFrom]
  | succ μ ih =>
    intro r lo hμ
    cases r with
    | zero => simp [cwrFrom]
    | succ r =>
      by_cases hlo : lo < n
      · rw [cwrFrom_peel hlo, List.pairwise_append]
        refine ⟨?_, ih (r + 1) (lo + 1) (by omega), ?_⟩
        · rw [List.pairwise_map]
          exact (ih r lo (by omega)).imp fun h => List.Lex.cons h
        · intro a ha b hb
          obtain ⟨a', _, rfl⟩ := List.mem_map.mp ha
          obtain ⟨hblen, _, hbbound⟩ := cwrFrom_mem hb
          cases b with
          | nil => simp at hblen
          | cons y b' =>
            have hy := hbbound y (by simp)
            exact List.Lex.rel (by omega)
      · rw [cwrFrom_eq_nil (by omega) (by omega)]
        exact List.Pairwise.nil

theorem genLoop_cwrStep_walk (n r : Nat) :
    ∀ (rest : List (List Nat)) (c : List Nat), IsRun (cwrStep n r) (c :: rest) →
      ∀ (i f : Nat),
        genLoop (cwrStep n (r + 1)) ((c :: rest).length + f) (i :: c) =
          ((c :: rest).map fun t => i :: t) ++
            (if i = n - 1 then []
             else genLoop (cwrStep n (r + 1)) f (List.replicate (r + 1) (i + 1))) := by
  intro rest
  induction rest with
  | nil =>
    intro c hrun i f
    have hnone : cwrStep n r c = none := hrun
    rw [show ([c].length + f) = f + 1 by simp [Nat.add_comm]]
    show (i :: c) :: _ = _
    rw [cwrStep_cons_of_none i hnone]
    by_cases hi : i = n - 1
    · simp [hi]
    · simp [hi]
  | cons c' rest ih =>
    intro c hrun i f
    obtain ⟨hstep, hrun'⟩ := (isRun_cons_cons).mp hrun
    rw [show ((c :: c' :: rest).length + f) = ((c' :: rest).length + f) + 1 by simp; omega]
    show (i :: c) :: _ = _
    rw [cwrStep_cons_of_some i hstep]
    show (i :: c) :: genLoop (cwrStep n (r + 1)) ((c' :: rest).length + f) (i :: c') = _
    rw [ih c' hrun' i f]
    simp

/-- Master correspondence for `combinationsWithReplacement`: with any
sufficient fuel, the loop started at `[lo, lo, ..., lo]` produces exactly
the lexicographic enumeration `cwrFrom n r lo`. -/
theorem genLoop_cwrStep_eq_cwrFrom (n : Nat) : ∀ r lo f : Nat, lo < n →
    genLoop (cwrStep n r) ((cwrFrom n r lo).length + f) (List.replicate r lo) =
      cwrFrom n r lo := by
  suffices H : ∀ μ r lo f, r + (n - lo) ≤ μ → lo < n →
      genLoop (cwrStep n r) ((cwrFrom n r lo).length + f) (List.replicate r lo) =
        cwrFrom n r lo by
    intro r lo f h; exact H (r + (n - lo)) r lo f le_rfl h
  intro μ
  induction μ with
  | zero => intro r lo f hμ h; omega
  | succ μ ih =>
    intro r lo f hμ hlo
    cases r with
    | zero =>
      rw [show (cwrFrom n 0 lo).length + f = f + 1 by simp [cwrFrom, Nat.add_comm]]
      rfl
    | succ r =>
      have hS := ih r lo 1 (by omega) hlo
      obtain ⟨hrun, hhead⟩ := isRun_of_genLoop hS (by omega)
      cases hScases : cwrFrom n r lo with
      | nil => rw [hScases] at hhead; simp at hhead
      | cons c rest =>
        rw [hScases] at hrun hhead
        have hc : c = List.replicate r lo := by simpa using hhead
        have hpeel := @cwrFrom_peel n r lo hlo
        have hfuel : (cwrFrom n (r + 1) lo).length + f =
            (c :: rest).length + ((cwrFrom n (r + 1) (lo + 1)).length + f) := by
          rw [hpeel, List.length_append, List.length_map, hScases]
          omega
        rw [hfuel, show List.replicate (r + 1) lo = lo :: List.replicate r lo from rfl, ← hc,
          genLoop_cwrStep_walk n r rest c hrun lo ((cwrFrom n (r + 1) (lo + 1)).length + f),
          hpeel, hScases]
        by_cases hboundary : lo = n - 1
        · rw [if_pos hboundary, @cwrFrom_eq_nil n (r + 1) (lo + 1) (by omega) (by omega)]
        · rw [if_neg hboundary, ih (r + 1) (lo + 1) f (by omega) (by omega)]

/-- With `0 < n`, the index-level `combinationsWithReplacement` output is
exactly the lexicographic enumeration of non-decreasing index tuples. -/
theorem cwrIndices_eq {n r : Nat} (h : 0 < n) :
    cwrIndices n r = cwrFrom n r 0 := by
  unfold cwrIndices
  rw [if_neg (by omega),
    show Nat.choose (n + r - 1) r + 1 = (cwrFrom n r 0).length + 1 by
      rw [cwrFrom_length r 0 h]
      congr 2
      omega]
  exact genLoop_cwrStep_eq_cwrFrom n r 0 1 h

/-! ## `zip` and `zipLongest` (src/zip.ts)

The variadic sources become a list of lists.  Each iteration of the source's
`while (true)` loop pulls one value from every source; `fuel` counts the
loop iterations actually observed, so a loop that never terminates (such as
`zip` with zero sources) simply yields one tuple per unit of fuel. -/

/-- `zip(...toZip)`: pull from every source in lock-step and stop as soon as
`result.some(({ done }) => done)`, i.e. as soon as any source is exhausted;
the values already pulled at that position are discarded. -/
def zip {α : Type _} [Inhabited α] : Nat → List (List α) → List (List α)
  | 0, _ => []
  | fuel + 1, its =>
    if its.any fun l => l.isEmpty then []
    else (its.map fun l => l.headD default) :: zip fuel (its.map List.tail)

/-- `zipLongest(...toZip)`: pull from every source in lock-step and stop only
when `!result.some(({ done }) => !done)`, i.e. when every source is
exhausted; exhausted sources contribute `undefined` (`Option.none`) in their
slot (`done ? undefined : value`). -/
def zipLongest {α : Type _} : Nat → List (List α) → List (List (Option α))
  | 0, _ => []
  | fuel + 1, its =>
    if its.all fun l => l.isEmpty then []
    else (its.map fun l => l.head?) :: zipLongest fuel (its.map List.tail)

theorem getD_tail {α : Type _} (l : List α) (k : Nat) (d : α) :
    l.tail.getD k d = l.getD (k + 1) d := by
  cases l <;> simp [List.getD]

theorem getElem?_tail_eq {α : Type _} (l : List α) (k : Nat) :
    l.tail[k]? = l[k + 1]? := by
  cases l <;> simp

/-- Complete characterisation of `zip` on sources of minimum length `m`:
with any fuel exceeding `m` it yields exactly `m` tuples, the `k`-th tuple
holding the `k`-th element of every source. -/
theorem zip_eq {α : Type _} [Inhabited α] : ∀ (m : Nat) (ls : List (List α)) (fuel : Nat),
    ls ≠ [] → (∀ l ∈ ls, m ≤ l.length) → (∃ l ∈ ls, l.length = m) → m < fuel →
    zip fuel ls = (List.range m).map fun k => ls.map fun l => l.getD k default := by
  intro m
  induction m with
  | zero =>
    intro ls fuel hne hlow ⟨l0, hl0, hl0len⟩ hfuel
    obtain ⟨fuel, rfl⟩ : ∃ f, fuel = f + 1 := ⟨fuel - 1, by omega⟩
    have hany : (ls.any fun l => l.isEmpty) = true := by
      rw [List.any_eq_true]
      exact ⟨l0, hl0, by simpa [List.isEmpty_iff, List.length_eq_zero] using hl0len⟩
    simp [zip, hany]
  | succ m ih =>
    intro ls fuel hne hlow hex hfuel
    obtain ⟨fuel, rfl⟩ : ∃ f, fuel = f + 1 := ⟨fuel - 1, by omega⟩
    have hany : (ls.any fun l => l.isEmpty) = false := by
      rw [List.any_eq_false]
      intro l hl
      have := hlow l hl
      simp only [List.isEmpty_iff]
      intro hnil
      rw [hnil] at this
      simp at this
    rw [zip, if_neg (by simp [hany]), List.range_succ_eq_map, List.map_cons]
    congr 1
    · apply List.map_congr_left
      intro l hl
      have hlpos : 0 < l.length := lt_of_lt_of_le (Nat.succ_pos m) (hlow l hl)
      cases l with
      | nil => simp at hlpos
      | cons a l' => simp [List.getD]
    · rw [ih (ls.map List.tail) fuel (by simpa using hne) ?_ ?_ (by omega), List.map_map]
      · apply List.map_congr_left
        intro k _
        simp only [Function.comp_apply, List.map_map]
        apply List.map_congr_left
        intro l _
        simp [getD_tail]
      · intro t ht
        obtain ⟨l, hl, rfl⟩ := List.mem_map.mp ht
        have := hlow l hl
        simp only [List.length_tail]
        omega
      · obtain ⟨l0, hl0, hl0len⟩ := hex
        exact ⟨l0.tail, List.mem_map.mpr ⟨l0, hl0, rfl⟩, by simp [hl0len]⟩

/-- Complete characterisation of `zipLongest` on sources of maximum length
`M`: with any fuel exceeding `M` it yields exactly `M` tuples, the `k`-th
tuple holding `l[k]?` for every source `l` — `some` of the element while the
source lasts, `none` (the `undefined` placeholder) once it is exhausted. -/
theorem zipLongest_eq {α : Type _} : ∀ (M : Nat) (ls : List (List α)) (fuel : Nat),
    ls ≠ [] → (∀ l ∈ ls, l.length ≤ M) → (∃ l ∈ ls, l.length = M) → M < fuel →
    zipLongest fuel ls = (List.range M).map fun k => ls.map fun l => l[k]? := by
  intro M
  induction M with
  | zero =>
    intro ls fuel hne hup hex hfuel
    obtain ⟨fuel, rfl⟩ : ∃ f, fuel = f + 1 := ⟨fuel - 1, by omega⟩
    have hall : (ls.all fun l => l.isEmpty) = true := by
      rw [List.all_eq_true]
      intro l hl
      have := hup l hl
      simpa [List.isEmpty_iff, List.length_eq_zero] using Nat.le_zero.mp this
    simp [zipLongest, hall]
  | succ M ih =>
    intro ls fuel hne hup hex hfuel
    obtain ⟨fuel, rfl⟩ : ∃ f, fuel = f + 1 := ⟨fuel - 1, by omega⟩
    obtain ⟨l0, hl0, hl0len⟩ := hex
    have hall : (ls.all fun l => l.isEmpty) = false := by
      rw [List.all_eq_false]
      refine ⟨l0, hl0, ?_⟩
      simp only [List.isEmpty_iff]
      intro hnil
      rw [hnil] at hl0len
      simp at hl0len
    rw [zipLongest, if_neg (by simp [hall]), List.range_succ_eq_map, List.map_cons]
    congr 1
    · apply List.map_congr_left
      intro l _
      cases l <;> simp
    · rw [ih (ls.map List.tail) fuel (by simpa using hne) ?_ ?_ (by omega), List.map_map]
      · apply List.map_congr_left
        intro k _
        simp only [Function.comp_apply, List.map_map]
        apply List.map_congr_left
        intro l _
        simp [getElem?_tail_eq]
      · intro t ht
        obtain ⟨l, hl, rfl⟩ := List.mem_map.mp ht
        have := hup l hl
        simp only [List.length_tail]
        omega
      · exact ⟨l0.tail, List.mem_map.mpr ⟨l0, hl0, rfl⟩, by simp [hl0len]⟩

/-! ## `islice` (the bundled itertools source, lines 528-597)

The source validates its arguments and then walks
`enumerate(iterable)` once, yielding the elements whose absolute position
matches the next wanted position `select`, which starts at `start` and
advances by `step`; the outer `takeWhile(count(start, step), (v) => v < end)`
stops the walk as soon as the next wanted position reaches `end`.
`end = Infinity` (the unbounded default) is modelled as `none`. -/

/-- The source's bound check `(v) => v < end`, where `end` may be
`Infinity` (`none`). -/
def ltEnd (v : Nat) : Option Nat → Bool
  | none => true
  | some e => decide (v < e)

/-- The interleaved scan of `islice`: `i` is the absolute position of the
next element of `rest` (the `enumerate` counter) and `select` the next
wanted position.  On a match the element is yielded and the wanted position
advances by `step` — continuing only while still `< end`; otherwise the
element is skipped.  An exhausted source ends the whole operation. -/
def isliceLoop {α : Type _} (step : Nat) (eo : Option Nat) : List α → Nat → Nat → List α
  | [], _, _ => []
  | x :: rest, i, select =>
    if i = select then
      x :: (if ltEnd (select + step) eo then isliceLoop step eo rest (i + 1) (select + step)
            else [])
    else isliceLoop step eo rest (i + 1) select

/-- `islice` after validation: the first wanted position is `start` itself,
provided it is `< end`. -/
def isliceCore {α : Type _} (l : List α) (start : Nat) (eo : Option Nat) (step : Nat) :
    List α :=
  if ltEnd start eo then isliceLoop step eo l 0 start else []

/-- The source's `end < 0` check; `end = Infinity` is never negative. -/
def endNegB : Option Int → Bool
  | some e => decide (e < 0)
  | none => false

/-- The three common validation checks of `islice`, in source order, followed
by the scan.  After validation all three parameters are non-negative, so they
are passed on as naturals. -/
def isliceChecked {α : Type _} (l : List α) (start : Int) (eo : Option Int) (step : Int) :
    Except String (List α) :=
  if start < 0 then .error "start param must be non-negative or undefined"
  else if endNegB eo then .error "end param must be non-negative or undefined"
  else if step ≤ 0 then .error "step param must be positive or undefined"
  else .ok (isliceCore l start.toNat (eo.map Int.toNat) step.toNat)

/-- `islice(iterable, startOrEnd, endValue?, stepValue?)`: the argument
dispatch of the source.  With neither `endValue` nor `stepValue` the single
argument is the exclusive end (`islice(source, k)`); with only `endValue`
missing the end is unbounded; a missing `stepValue` defaults to `1`. -/
def islice {α : Type _} (l : List α) (startOrEnd : Int) (endValue stepValue : Option Int) :
    Except String (List α) :=
  match endValue, stepValue with
  | none, none =>
    if startOrEnd < 0 then .error "k param must be non-negative or undefined"
    else isliceChecked l 0 (some startOrEnd) 1
  | none, some sv => isliceChecked l startOrEnd none sv
  | some ev, sv => isliceChecked l startOrEnd (some ev) (sv.getD 1)

/-- Observable lifecycle of one `islice(...)` invocation.  `islice` is a
generator function (`function*`), so evaluating the call expression only
allocates a suspended generator and never runs the body: `callResult` is
always `Except.ok`.  The body — validation included — runs on the pulls, so
a validation failure surfaces as `raised` on the first pull, after zero
yields. -/
structure GenInvocation (α : Type _) where
  callResult : Except String Unit
  yields : List α
  raised : Option String

/-- The lifecycle of `islice(l, startOrEnd, endValue, stepValue)`. -/
def isliceInvocation {α : Type _} (l : List α) (startOrEnd : Int)
    (endValue stepValue : Option Int) : GenInvocation α :=
  { callResult := .ok ()
    yields :=
      match islice l startOrEnd endValue stepValue with
      | .ok ys => ys
      | .error _ => []
    raised :=
      match islice l startOrEnd endValue stepValue with
      | .ok _ => none
      | .error msg => some msg }

/-- Specification-side selection predicate: position `p` is wanted when it is
one of `start, start + step, start + 2 * step, ...` and `p < end`. -/
def selB (s st : Nat) (eo : Option Nat) (p : Nat) : Bool :=
  decide (s ≤ p) && decide (st ∣ (p - s)) && ltEnd p eo

theorem selB_eq_true_iff {s st : Nat} {eo : Option Nat} {p : Nat} :
    selB s st eo p = true ↔ s ≤ p ∧ st ∣ (p - s) ∧ ltEnd p eo = true := by
  simp [selB, Bool.and_eq_true, and_assoc]

theorem ltEnd_of_le {a b : Nat} {eo : Option Nat} (h : ltEnd a eo = true) (hba : b ≤ a) :
    ltEnd b eo = true := by
  cases eo with
  | none => rfl
  | some e =>
    simp only [ltEnd, decide_eq_true_eq] at h ⊢
    omega

theorem isliceLoop_eq {α : Type _} (st : Nat) (hst : 0 < st) (eo : Option Nat) (s : Nat) :
    ∀ (rest : List α) (i select : Nat),
      ltEnd select eo = true → i ≤ select → s ≤ select → st ∣ (select - s) →
      (∀ p, i ≤ p → p < select → selB s st eo p = false) →
      isliceLoop st eo rest i select =
        ((List.enumFrom i rest).filter fun q => selB s st eo q.1).map Prod.snd := by
  intro rest
  induction rest with
  | nil => intro i select _ _ _ _ _; rfl
  | cons x rest ih =>
    intro i select hsel hile hsle hdvd hinv
    by_cases hi : i = select
    · subst hi
      have hselB : selB s st eo i = true :=
        selB_eq_true_iff.mpr ⟨hsle, hdvd, hsel⟩
      rw [show List.enumFrom i (x :: rest) = (i, x) :: List.enumFrom (i + 1) rest from rfl,
        List.filter_cons, if_pos hselB]
      show (if i = i then _ else _) = _
      rw [if_pos rfl]
      by_cases hnext : ltEnd (i + st) eo = true
      · rw [if_pos hnext, List.map_cons]
        congr 1
        refine ih (i + 1) (i + st) hnext (by omega) (by omega) ?_ ?_
        · rw [show i + st - s = (i - s) + st by omega]
          exact Nat.dvd_add hdvd dvd_rfl
        · intro p hp1 hp2
          rw [Bool.eq_false_iff]
          intro hpB
          obtain ⟨hsp, hdvdp, _⟩ := selB_eq_true_iff.mp hpB
          have hdvd2 : st ∣ p - i := by
            have := Nat.dvd_sub' hdvdp hdvd
            rwa [show p - s - (i - s) = p - i by omega] at this
          have := Nat.le_of_dvd (by omega) hdvd2
          omega
      · rw [if_neg hnext, List.map_cons]
        have hfil : (List.enumFrom (i + 1) rest).filter (fun q => selB s st eo q.1) = [] := by
          rw [List.filter_eq_nil_iff]
          rintro ⟨p, y⟩ hq hpB
          obtain ⟨hip, -, -⟩ := List.mem_enumFrom hq
          obtain ⟨hsp, hdvdp, hltp⟩ := selB_eq_true_iff.mp hpB
          have hdvd2 : st ∣ p - i := by
            have := Nat.dvd_sub' hdvdp hdvd
            rwa [show p - s - (i - s) = p - i by omega] at this
          have hpi : st ≤ p - i := Nat.le_of_dvd (by omega) hdvd2
          exact absurd (ltEnd_of_le hltp (by omega)) hnext
        rw [hfil]
        rfl
    · have hlt : i < select := lt_of_le_of_ne hile hi
      rw [show List.enumFrom i (x :: rest) = (i, x) :: List.enumFrom (i + 1) rest from rfl,
        List.filter_cons, if_neg (by simp [hinv i le_rfl hlt])]
      show (if i = select then _ else _) = _
      rw [if_neg hi]
      exact ih (i + 1) select hsel (by omega) hsle hdvd fun p hp1 hp2 => hinv p (by omega) hp2

/-- `isliceCore` yields exactly the elements whose absolute position is
selected, in source order. -/
theorem isliceCore_eq {α : Type _} (l : List α) (s st : Nat) (eo : Option Nat)
    (hst : 0 < st) :
    isliceCore l s eo st = ((l.enum.filter fun q => selB s st eo q.1).map Prod.snd) := by
  unfold isliceCore
  by_cases h : ltEnd s eo = true
  · rw [if_pos h]
    exact isliceLoop_eq st hst eo s l 0 s h (by omega) le_rfl (by simp) fun p h0 hps => by
      rw [Bool.eq_false_iff]
      intro hpB
      obtain ⟨hsp, -, -⟩ := selB_eq_true_iff.mp hpB
      omega
  · rw [if_neg h]
    have hfil : l.enum.filter (fun q => selB s st eo q.1) = [] := by
      rw [List.filter_eq_nil_iff]
      rintro ⟨p, y⟩ hq hpB
      obtain ⟨hsp, -, hltp⟩ := selB_eq_true_iff.mp hpB
      exact h (ltEnd_of_le hltp hsp)
    rw [hfil]
    rfl

/-! ## `groupBy` (the bundled itertools source, lines 439-523)

The source keeps one shared mutable record — the cursor `it` over the
source, `currKey`, `targetKey`, `currValue` and the generation object `id` —
read and written by both the outer generator and the inner `grouper`
generators.  It is embedded as an explicit state value threaded through the
two step functions.  JavaScript compares the dummy objects and keys with
`===`: the initial dummies (`{}`) are modelled as `none` (equal to each
other, as in the source where `targetKey = currKey` aliases one object, and
different from every real key), real keys as `some k` under decidable
equality, and the freshly minted generation objects as increasing naturals. -/

structure GroupByState (α K : Type _) where
  /-- What the shared cursor `it` has not produced yet. -/
  rest : List α
  /-- `currKey`; `none` is the initial dummy object. -/
  currKey : Option K
  /-- `targetKey`; initially the same dummy as `currKey`. -/
  targetKey : Option K
  /-- `currValue`; `none` before the first pull and after exhaustion. -/
  currValue : Option α
  /-- The live generation token (`id`); `id = {}` mints a fresh one. -/
  id : Nat

/-- The state right after `groupBy` is called: nothing pulled yet, all three
shared variables still holding their dummies. -/
def initState {α K : Type _} (xs : List α) : GroupByState α K :=
  ⟨xs, none, none, none, 0⟩

/-- A handle on one inner `grouper` generator: the generation token it was
created with, whether it has resumed past its first `yield`, and whether the
generator has returned (a done JavaScript generator never runs its body
again). -/
structure Grouper where
  targetId : Nat
  started : Bool
  finished : Bool

/-- The outer loop's inner `while (currKey === targetKey)` drain: pull from
the shared cursor, refreshing `currValue` and `currKey`, until the key
changes; `none` when the source is exhausted first (the whole `groupBy`
generator returns).  On exit it reports the new current key and value and
the remaining source.  The source's own comment guarantees `currKey` and
`currValue` are defined (`some`) whenever the loop exits, so the impossible
dummy case maps to `none`. -/
def drain {α K : Type _} [DecidableEq K] (keyFunc : α → K) (targetKey : Option K) :
    List α → Option K → Option α → Option (K × α × List α)
  | rest, currKey, currValue =>
    if currKey = targetKey then
      match rest with
      | [] => none
      | x :: rest' => drain keyFunc targetKey rest' (some (keyFunc x)) (some x)
    else
      match currKey, currValue with
      | some k, some v => some (k, v, rest)
      | _, _ => none

/-- One pull on the outer `groupBy` generator: mint a fresh generation
object, drain past the remainder of the previous group, then set
`targetKey = currKey` and yield the pair.  The yielded inner sub-sequence is
the `grouper` closure over the token `id`; its handle is recreated by the
caller as `⟨(new state).id, false, false⟩`. -/
def groupByNext {α K : Type _} [DecidableEq K] (keyFunc : α → K) (s : GroupByState α K) :
    Option (K × GroupByState α K) :=
  match drain keyFunc s.targetKey s.rest s.currKey s.currValue with
  | none => none
  | some (k, v, rest') =>
    some (k, ⟨rest', some k, some k, some v, s.id + 1⟩)

/-- One pull on an inner `grouper` generator.  A first pull checks the guard
`id === targetId && currKey === targetKey` and yields the shared
`currValue` without touching the cursor.  A later pull resumes inside the
loop body just after `yield`: it pulls the shared cursor (refreshing
`currValue`/`currKey`, or returning and clearing `currValue` if the source
is exhausted) and only then re-checks the guard — so even a pull that will
produce no value consumes one element.  A finished generator does nothing. -/
def grouperNext {α K : Type _} [DecidableEq K] (keyFunc : α → K) (g : Grouper)
    (s : GroupByState α K) : Option α × Grouper × GroupByState α K :=
  if g.finished then (none, g, s)
  else if g.started then
    match s.rest with
    | [] => (none, { g with finished := true }, { s with currValue := none })
    | x :: rest' =>
      let s' : GroupByState α K :=
        { s with rest := rest', currValue := some x, currKey := some (keyFunc x) }
      if s'.id = g.targetId ∧ s'.currKey = s'.targetKey then (some x, g, s')
      else (none, { g with finished := true }, s')
  else
    if s.id = g.targetId ∧ s.currKey = s.targetKey then
      match s.currValue with
      | some v => (some v, { g with started := true }, s)
      | none => (none, { g with finished := true }, s)
    else (none, { g with finished := true }, s)

theorem grouperNext_some_measure {α K : Type _} [DecidableEq K] {keyFunc : α → K}
    {g : Grouper} {s : GroupByState α K} {v : α} {g' : Grouper} {s' : GroupByState α K}
    (h : grouperNext keyFunc g s = (some v, g', s')) :
    s'.rest.length + (if g'.started then 0 else 1) <
      s.rest.length + (if g.started then 0 else 1) := by
  by_cases hf : g.finished
  · simp [grouperNext, hf] at h
  · by_cases hs : g.started
    · cases hrest : s.rest with
      | nil => simp [grouperNext, hf, hs, hrest] at h
      | cons x rest' =>
        by_cases hcond : s.id = g.targetId ∧ some (keyFunc x) = s.targetKey
        · have heq : grouperNext keyFunc g s =
              (some x, g, ⟨rest', some (keyFunc x), s.targetKey, some x, s.id⟩) := by
            simp [grouperNext, hf, hs, hrest, hcond]
          rw [heq] at h
          simp only [Prod.mk.injEq] at h
          obtain ⟨-, hg, hstate⟩ := h
          subst hg
          rw [← hstate]
          simp only [hs, if_pos]
          simp [hrest]
        · have heq : grouperNext keyFunc g s =
              (none, { g with finished := true },
                ⟨rest', some (keyFunc x), s.targetKey, some x, s.id⟩) := by
            simp [grouperNext, hf, hs, hrest, hcond]
          rw [heq] at h
          simp at h
    · by_cases hcond : s.id = g.targetId ∧ s.currKey = s.targetKey
      · cases hcv : s.currValue with
        | none => simp [grouperNext, hf, hs, hcond, hcv] at h
        | some v0 =>
          have heq : grouperNext keyFunc g s = (some v0, { g with started := true }, s) := by
            simp [grouperNext, hf, hs, hcond, hcv]
          rw [heq] at h
          simp only [Prod.mk.injEq] at h
          obtain ⟨-, hg, hstate⟩ := h
          subst hg
          rw [← hstate]
          simp [hs]
      · simp [grouperNext, hf, hs, hcond] at h

/-- The eager consumption of one inner sub-sequence: pull until it reports
end-of-sequence, collecting the yielded values and the final shared state. -/
def consumeGroup {α K : Type _} [DecidableEq K] (keyFunc : α → K) (g : Grouper)
    (s : GroupByState α K) : List α × GroupByState α K :=
  match h : grouperNext keyFunc g s with
  | (none, _, s') => ([], s')
  | (some v, g', s') =>
    let p := consumeGroup keyFunc g' s'
    (v :: p.1, p.2)
termination_by s.rest.length + (if g.started then 0 else 1)
decreasing_by exact grouperNext_some_measure h

/-- The consumption schedule of claim C1: pull the outer sequence; after each
yielded pair, fully consume its sub-sequence before the next outer pull.
One unit of fuel per group; `xs.length + 1` units always suffice. -/
def groupByEagerAux {α K : Type _} [DecidableEq K] (keyFunc : α → K) :
    Nat → GroupByState α K → List (K × List α)
  | 0, _ => []
  | fuel + 1, s =>
    match groupByNext keyFunc s with
    | none => []
    | some (k, s') =>
      let p := consumeGroup keyFunc ⟨s'.id, false, false⟩ s'
      (k, p.1) :: groupByEagerAux keyFunc fuel p.2

/-- `groupBy(xs, keyFunc)` under the eager schedule, from the initial state. -/
def groupByEager {α K : Type _} [DecidableEq K] (keyFunc : α → K) (xs : List α) :
    List (K × List α) :=
  groupByEagerAux keyFunc (xs.length + 1) (initState xs)

/-! ### Pull-by-pull characterisation of the eager schedule -/

theorem consumeGroup_none {α K : Type _} [DecidableEq K] {keyFunc : α → K} {g : Grouper}
    {s : GroupByState α K} {g1 : Grouper} {s1 : GroupByState α K}
    (h : grouperNext keyFunc g s = (none, g1, s1)) :
    consumeGroup keyFunc g s = ([], s1) := by
  unfold consumeGroup
  split
  next g' s' heq =>
    rw [heq] at h
    simp only [Prod.mk.injEq] at h
    rw [h.2.2]
  next v g' s' heq =>
    rw [heq] at h
    simp at h

theorem consumeGroup_some {α K : Type _} [DecidableEq K] {keyFunc : α → K} {g : Grouper}
    {s : GroupByState α K} {v : α} {g1 : Grouper} {s1 : GroupByState α K}
    (h : grouperNext keyFunc g s = (some v, g1, s1)) :
    consumeGroup keyFunc g s =
      (v :: (consumeGroup keyFunc g1 s1).1, (consumeGroup keyFunc g1 s1).2) := by
  conv_lhs => unfold consumeGroup
  split
  next g' s' heq =>
    rw [heq] at h
    simp at h
  next v' g' s' heq =>
    rw [heq] at h
    simp only [Prod.mk.injEq] at h
    obtain ⟨hv, rfl, rfl⟩ := h
    obtain rfl : v' = v := Option.some.inj hv
    rfl

/-- Consuming an already started inner sub-sequence whose group key is `k`
yields the longest key-`k` prefix of the remaining source; the final shared
state either records exhaustion or holds the first element of the next
group. -/
theorem consumeGroup_started {α K : Type _} [DecidableEq K] (keyFunc : α → K) (id0 : Nat) :
    ∀ (rest : List α) (k : K) (cv : Option α),
      consumeGroup keyFunc ⟨id0, true, false⟩ ⟨rest, some k, some k, cv, id0⟩ =
        (rest.takeWhile fun x => decide (keyFunc x = k),
         match rest.dropWhile (fun x => decide (keyFunc x = k)) with
         | [] => ⟨[], some k, some k, none, id0⟩
         | y :: rest₂ => ⟨rest₂, some (keyFunc y), some k, some y, id0⟩) := by
  intro rest
  induction rest with
  | nil =>
    intro k cv
    have hg : grouperNext keyFunc (⟨id0, true, false⟩ : Grouper)
        (⟨[], some k, some k, cv, id0⟩ : GroupByState α K) =
        (none, ⟨id0, true, true⟩, ⟨[], some k, some k, none, id0⟩) := by
      simp [grouperNext]
    rw [consumeGroup_none hg]
    simp
  | cons x rest ih =>
    intro k cv
    by_cases hk : keyFunc x = k
    · have hg : grouperNext keyFunc (⟨id0, true, false⟩ : Grouper)
          (⟨x :: rest, some k, some k, cv, id0⟩ : GroupByState α K) =
          (some x, ⟨id0, true, false⟩,
            ⟨rest, some (keyFunc x), some k, some x, id0⟩) := by
        simp [grouperNext, hk]
      rw [consumeGroup_some hg,
        show (⟨rest, some (keyFunc x), some k, some x, id0⟩ : GroupByState α K) =
          ⟨rest, some k, some k, some x, id0⟩ by rw [hk],
        ih k (some x), List.takeWhile_cons, List.dropWhile_cons]
      simp [hk]
    · have hg : grouperNext keyFunc (⟨id0, true, false⟩ : Grouper)
          (⟨x :: rest, some k, some k, cv, id0⟩ : GroupByState α K) =
          (none, ⟨id0, true, true⟩,
            ⟨rest, some (keyFunc x), some k, some x, id0⟩) := by
        simp [grouperNext, hk]
      rw [consumeGroup_none hg, List.takeWhile_cons, List.dropWhile_cons]
      simp [hk]

/-- Consuming a freshly yielded inner sub-sequence: the first pull hands back
the shared `currValue`, the rest of the run follows as in
`consumeGroup_started`. -/
theorem consumeGroup_fresh {α K : Type _} [DecidableEq K] (keyFunc : α → K) (id0 : Nat)
    (rest : List α) (k : K) (v : α) :
    consumeGroup keyFunc ⟨id0, false, false⟩ ⟨rest, some k, some k, some v, id0⟩ =
      (v :: (rest.takeWhile fun x => decide (keyFunc x = k)),
       match rest.dropWhile (fun x => decide (keyFunc x = k)) with
       | [] => ⟨[], some k, some k, none, id0⟩
       | y :: rest₂ => ⟨rest₂, some (keyFunc y), some k, some y, id0⟩) := by
  have hg : grouperNext keyFunc (⟨id0, false, false⟩ : Grouper)
      (⟨rest, some k, some k, some v, id0⟩ : GroupByState α K) =
      (some v, ⟨id0, true, false⟩, ⟨rest, some k, some k, some v, id0⟩) := by
    simp [grouperNext]
  rw [consumeGroup_some hg, consumeGroup_started]

theorem dropWhile_head_false {α : Type _} {p : α → Bool} {y : α} {r2 : List α} :
    ∀ {l : List α}, l.dropWhile p = y :: r2 → p y = false := by
  intro l
  induction l with
  | nil => intro h; simp at h
  | cons a l ih =>
    intro h
    rw [List.dropWhile_cons] at h
    by_cases hpa : p a
    · rw [if_pos hpa] at h
      exact ih h
    · rw [if_neg hpa] at h
      obtain ⟨rfl, -⟩ := List.cons.inj h
      simpa using hpa

theorem length_dropWhile_le_self {α : Type _} (p : α → Bool) (l : List α) :
    (l.dropWhile p).length ≤ l.length := by
  induction l with
  | nil => simp
  | cons a l ih =>
    rw [List.dropWhile_cons]
    by_cases hpa : p a
    · rw [if_pos hpa]
      simp only [List.length_cons]
      omega
    · rw [if_neg hpa]

theorem drain_nil {α K : Type _} [DecidableEq K] (keyFunc : α → K)
    {targetKey currKey : Option K} (cv : Option α) (h : currKey = targetKey) :
    drain keyFunc targetKey [] currKey cv = none := by
  unfold drain
  rw [if_pos h]

theorem drain_cons {α K : Type _} [DecidableEq K] (keyFunc : α → K)
    {targetKey currKey : Option K} (x : α) (rest : List α) (cv : Option α)
    (h : currKey = targetKey) :
    drain keyFunc targetKey (x :: rest) currKey cv =
      drain keyFunc targetKey rest (some (keyFunc x)) (some x) := by
  conv_lhs => unfold drain
  rw [if_pos h]

theorem drain_stop {α K : Type _} [DecidableEq K] (keyFunc : α → K)
    {targetKey : Option K} {k : K} (v : α) (rest : List α)
    (hne : some k ≠ targetKey) :
    drain keyFunc targetKey rest (some k) (some v) = some (k, v, rest) := by
  unfold drain
  rw [if_neg hne]

/-- The loop invariant of the eager schedule, relating the shared state to
the part of the source not yet reproduced in the output.  Either the state
is at a clean boundary (initially, with both keys still the dummy, or after
exhaustion) and the pending elements are exactly `rest`; or the first
element of the next group has already been pulled into `currValue` by the
previous group's last pull. -/
def EagerInv {α K : Type _} (keyFunc : α → K) (s : GroupByState α K)
    (pending : List α) : Prop :=
  (s.currKey = s.targetKey ∧ (s.currKey = none ∨ s.rest = []) ∧ pending = s.rest) ∨
  (∃ v, s.currValue = some v ∧ s.currKey = some (keyFunc v) ∧ s.currKey ≠ s.targetKey ∧
    pending = v :: s.rest)

theorem consumeGroup_fresh_inv {α K : Type _} [DecidableEq K] (keyFunc : α → K)
    (id0 : Nat) (rest : List α) (k : K) (v : α) :
    EagerInv keyFunc
      (consumeGroup keyFunc ⟨id0, false, false⟩ ⟨rest, some k, some k, some v, id0⟩).2
      (rest.dropWhile fun x => decide (keyFunc x = k)) := by
  rw [consumeGroup_fresh]
  cases hd : rest.dropWhile (fun x => decide (keyFunc x = k)) with
  | nil =>
    exact Or.inl ⟨rfl, Or.inr rfl, rfl⟩
  | cons y r2 =>
    refine Or.inr ⟨y, rfl, rfl, ?_, rfl⟩
    have := dropWhile_head_false hd
    simp only [decide_eq_false_iff_not] at this
    simp [this]

/-- One group of the eager schedule flattens to the pending elements it came
from. -/
theorem eager_step_flatten {α K : Type _} [DecidableEq K] (keyFunc : α → K) (fuel : Nat)
    (ih : ∀ (s : GroupByState α K) (pending : List α), EagerInv keyFunc s pending →
      pending.length < fuel →
      ((groupByEagerAux keyFunc fuel s).map Prod.snd).flatten = pending)
    (k : K) (v : α) (R : List α) (id1 : Nat) (hlen : R.length < fuel) :
    (((k, (consumeGroup keyFunc ⟨id1, false, false⟩
          (⟨R, some k, some k, some v, id1⟩ : GroupByState α K)).1) ::
        groupByEagerAux keyFunc fuel
          (consumeGroup keyFunc ⟨id1, false, false⟩
            (⟨R, some k, some k, some v, id1⟩ : GroupByState α K)).2).map
        Prod.snd).flatten = v :: R := by
  have hinv := consumeGroup_fresh_inv keyFunc id1 R k v
  have hlen2 : (R.dropWhile fun x => decide (keyFunc x = k)).length < fuel :=
    lt_of_le_of_lt (length_dropWhile_le_self _ R) hlen
  rw [List.map_cons, List.flatten_cons, ih _ _ hinv hlen2, consumeGroup_fresh]
  show (v :: (R.takeWhile fun x => decide (keyFunc x = k))) ++
      (R.dropWhile fun x => decide (keyFunc x = k)) = v :: R
  rw [List.cons_append, List.takeWhile_append_dropWhile]

/-- Round trip of the eager schedule: starting from any state satisfying the
invariant, flattening the remaining groups reproduces the pending input. -/
theorem groupByEagerAux_flatten {α K : Type _} [DecidableEq K] (keyFunc : α → K) :
    ∀ (fuel : Nat) (s : GroupByState α K) (pending : List α),
      EagerInv keyFunc s pending → pending.length < fuel →
      ((groupByEagerAux keyFunc fuel s).map Prod.snd).flatten = pending := by
  intro fuel
  induction fuel with
  | zero => intro s pending _ h; omega
  | succ fuel ih =>
    intro s pending hinv hlen
    rcases hinv with ⟨hkt, hcase, hpend⟩ | ⟨v, hcv, hck, hne, hpend⟩
    · rcases hcase with hnone | hnil
      · cases hrest : s.rest with
        | nil =>
          have hnext : groupByNext keyFunc s = none := by
            unfold groupByNext
            rw [hrest, drain_nil keyFunc s.currValue hkt]
          show ((groupByEagerAux keyFunc (fuel + 1) s).map Prod.snd).flatten = pending
          unfold groupByEagerAux
          rw [hnext, hpend, hrest]
          rfl
        | cons x rest' =>
          have htk : s.targetKey = none := by rw [← hkt, hnone]
          have hdrain : drain keyFunc s.targetKey s.rest s.currKey s.currValue =
              some (keyFunc x, x, rest') := by
            rw [hrest, drain_cons keyFunc x rest' s.currValue hkt,
              drain_stop keyFunc x rest' (by rw [htk]; simp)]
          have hnext : groupByNext keyFunc s =
              some (keyFunc x, ⟨rest', some (keyFunc x), some (keyFunc x), some x, s.id + 1⟩) := by
            unfold groupByNext
            rw [hdrain]
          show ((groupByEagerAux keyFunc (fuel + 1) s).map Prod.snd).flatten = pending
          unfold groupByEagerAux
          rw [hnext]
          have hlen' : rest'.length < fuel := by
            rw [hpend, hrest] at hlen
            simp only [List.length_cons] at hlen
            omega
          rw [eager_step_flatten keyFunc fuel ih (keyFunc x) x rest' (s.id + 1) hlen',
            hpend, hrest]
      · have hnext : groupByNext keyFunc s = none := by
          unfold groupByNext
          rw [hnil, drain_nil keyFunc s.currValue hkt]
        show ((groupByEagerAux keyFunc (fuel + 1) s).map Prod.snd).flatten = pending
        unfold groupByEagerAux
        rw [hnext, hpend, hnil]
        rfl
    · have hdrain : drain keyFunc s.targetKey s.rest s.currKey s.currValue =
          some (keyFunc v, v, s.rest) := by
        rw [hcv, hck, drain_stop keyFunc v s.rest (by rw [← hck]; exact hne)]
      have hnext : groupByNext keyFunc s =
          some (keyFunc v, ⟨s.rest, some (keyFunc v), some (keyFunc v), some v, s.id + 1⟩) := by
        unfold groupByNext
        rw [hdrain]
      have hlen' : s.rest.length < fuel := by
        rw [hpend] at hlen
        simp only [List.length_cons] at hlen
        omega
      show ((groupByEagerAux keyFunc (fuel + 1) s).map Prod.snd).flatten = pending
      unfold groupByEagerAux
      rw [hnext, eager_step_flatten keyFunc fuel ih (keyFunc v) v s.rest (s.id + 1) hlen',
        hpend]

/-- Round trip from the initial state: the eager schedule reproduces the
input, element for element and in order. -/
theorem groupByEager_flatten {α K : Type _} [DecidableEq K] (keyFunc : α → K)
    (xs : List α) : ((groupByEager keyFunc xs).map Prod.snd).flatten = xs := by
  unfold groupByEager
  exact groupByEagerAux_flatten keyFunc (xs.length + 1) (initState xs) xs
    (Or.inl ⟨rfl, Or.inl rfl, rfl⟩) (by omega)

theorem groupByEagerAux_succ_some {α K : Type _} [DecidableEq K] {keyFunc : α → K}
    {s : GroupByState α K} {k : K} {s1 : GroupByState α K}
    (h : groupByNext keyFunc s = some (k, s1)) (fuel : Nat) :
    groupByEagerAux keyFunc (fuel + 1) s =
      (k, (consumeGroup keyFunc ⟨s1.id, false, false⟩ s1).1) ::
        groupByEagerAux keyFunc fuel (consumeGroup keyFunc ⟨s1.id, false, false⟩ s1).2 := by
  conv_lhs => unfold groupByEagerAux
  rw [h]

theorem groupByEagerAux_succ_none {α K : Type _} [DecidableEq K] {keyFunc : α → K}
    {s : GroupByState α K} (h : groupByNext keyFunc s = none) (fuel : Nat) :
    groupByEagerAux keyFunc (fuel + 1) s = [] := by
  unfold groupByEagerAux
  rw [h]

/-- The concrete scenario of claim C1, computed group by group. -/
theorem groupByEager_example :
    groupByEager (fun v : Nat => v) [0, 0, 1, 1, 2] =
      [(0, [0, 0]), (1, [1, 1]), (2, [2])] := by
  show groupByEagerAux (fun v : Nat => v) 6 (initState [0, 0, 1, 1, 2]) = _
  rw [groupByEagerAux_succ_some
    (show groupByNext (fun v : Nat => v) (initState [0, 0, 1, 1, 2]) =
      some (0, ⟨[0, 1, 1, 2], some 0, some 0, some 0, 1⟩) from rfl) 5,
    consumeGroup_fresh (fun v : Nat => v) 1 [0, 1, 1, 2] 0 0]
  show ((0 : Nat), [0, 0]) ::
      groupByEagerAux (fun v : Nat => v) 5 ⟨[1, 2], some 1, some 0, some 1, 1⟩ = _
  rw [groupByEagerAux_succ_some
    (show groupByNext (fun v : Nat => v) ⟨[1, 2], some 1, some 0, some 1, 1⟩ =
      some (1, ⟨[1, 2], some 1, some 1, some 1, 2⟩) from rfl) 4,
    consumeGroup_fresh (fun v : Nat => v) 2 [1, 2] 1 1]
  show ((0 : Nat), [0, 0]) :: ((1 : Nat), [1, 1]) ::
      groupByEagerAux (fun v : Nat => v) 4 ⟨[], some 2, some 1, some 2, 2⟩ = _
  rw [groupByEagerAux_succ_some
    (show groupByNext (fun v : Nat => v) ⟨[], some 2, some 1, some 2, 2⟩ =
      some (2, ⟨[], some 2, some 2, some 2, 3⟩) from rfl) 3,
    consumeGroup_fresh (fun v : Nat => v) 3 [] 2 2]
  show ((0 : Nat), [0, 0]) :: ((1 : Nat), [1, 1]) :: ((2 : Nat), [2]) ::
      groupByEagerAux (fun v : Nat => v) 3 ⟨[], some 2, some 2, none, 3⟩ = _
  rw [groupByEagerAux_succ_none
    (show groupByNext (fun v : Nat => v) ⟨[], some 2, some 2, none, 3⟩ = none from rfl) 2]

/-! ## The claims -/

/-- C1: For every finite sequence `xs`, flattening the groups produced by
`groupBy(xs)` in order, with each inner sub-sequence fully consumed
immediately after its (key, sub-sequence) pair is yielded and before the
next outer pull, reproduces `xs` exactly, element for element and in order;
in particular `groupBy([0,0,1,1,2])` with the default key yields the pairs
`(0, [0,0])`, `(1, [1,1])`, `(2, [2])`. -/
theorem claim_C1_groupBy_roundtrip :
    (∀ (α K : Type) [DecidableEq K] (keyFunc : α → K) (xs : List α),
      ((groupByEager keyFunc xs).map Prod.snd).flatten = xs) ∧
    groupByEager (fun v : Nat => v) [0, 0, 1, 1, 2] =
      [(0, [0, 0]), (1, [1, 1]), (2, [2])] :=
  ⟨fun _ _ _ keyFunc xs => groupByEager_flatten keyFunc xs, groupByEager_example⟩

/-- C2, counterexample: run `groupBy([0,0,1,1,2])` with the default key; pull
the first pair, pull its sub-sequence once (yielding `0`), then advance the
outer sequence to the second pair.  The next pull on the first, now stale,
sub-sequence yields no value — but it resumes inside the loop body after its
`yield`, so it pulls the shared cursor once before re-checking the guard:
the shared `rest` shrinks from `[1, 2]` to `[2]`, consuming an element of
group 2, contrary to the claim that a stale pull does not advance the shared
cursor. -/
theorem claim_C2_counterexample :
    groupByNext (fun v : Nat => v) (initState [0, 0, 1, 1, 2]) =
      some (0, ⟨[0, 1, 1, 2], some 0, some 0, some 0, 1⟩) ∧
    grouperNext (fun v : Nat => v) ⟨1, false, false⟩
        ⟨[0, 1, 1, 2], some 0, some 0, some 0, 1⟩ =
      (some 0, ⟨1, true, false⟩, ⟨[0, 1, 1, 2], some 0, some 0, some 0, 1⟩) ∧
    groupByNext (fun v : Nat => v) ⟨[0, 1, 1, 2], some 0, some 0, some 0, 1⟩ =
      some (1, ⟨[1, 2], some 1, some 1, some 1, 2⟩) ∧
    grouperNext (fun v : Nat => v) ⟨1, true, false⟩
        ⟨[1, 2], some 1, some 1, some 1, 2⟩ =
      (none, ⟨1, true, true⟩, ⟨[2], some 1, some 1, some 1, 2⟩) ∧
    (⟨[2], some 1, some 1, some 1, 2⟩ : GroupByState Nat Nat).rest ≠
      (⟨[1, 2], some 1, some 1, some 1, 2⟩ : GroupByState Nat Nat).rest :=
  ⟨rfl, rfl, rfl, rfl, by decide⟩

/-- C2, amended: once the outer `groupBy` sequence has been advanced past a
group, every pull on that group's sub-sequence yields no value and leaves
the sub-sequence finished; a pull on a finished or never-started stale
sub-sequence does not touch the shared state, while the first pull on a
started, unfinished stale sub-sequence consumes at most one element of the
shared cursor (it resumes past its `yield`, pulls, and only then notices the
generation token changed). -/
theorem claim_C2_stale_grouper {α K : Type _} [DecidableEq K] (keyFunc : α → K)
    (g : Grouper) (s : GroupByState α K) (h : s.id ≠ g.targetId) :
    (grouperNext keyFunc g s).1 = none ∧
    (grouperNext keyFunc g s).2.1.finished = true ∧
    ((g.started = false ∨ g.finished = true) → (grouperNext keyFunc g s).2.2 = s) ∧
    s.rest.length - 1 ≤ (grouperNext keyFunc g s).2.2.rest.length ∧
    (∀ (g' : Grouper) (s' : GroupByState α K), g'.finished = true →
      grouperNext keyFunc g' s' = (none, g', s')) := by
  have hfin : ∀ (g' : Grouper) (s' : GroupByState α K), g'.finished = true →
      grouperNext keyFunc g' s' = (none, g', s') := by
    intro g' s' hf
    simp [grouperNext, hf]
  by_cases hf : g.finished
  · rw [hfin g s hf]
    exact ⟨rfl, hf, fun _ => rfl, by simp, hfin⟩
  · by_cases hs : g.started
    · cases hrest : s.rest with
      | nil =>
        have : grouperNext keyFunc g s =
            (none, { g with finished := true }, { s with currValue := none }) := by
          simp [grouperNext, hf, hs, hrest]
        rw [this]
        refine ⟨rfl, rfl, ?_, by simp [hrest], hfin⟩
        intro hc
        rcases hc with hc | hc
        · rw [hs] at hc; exact absurd hc (by simp)
        · exact absurd hc (by simp [hf])
      | cons x rest' =>
        have : grouperNext keyFunc g s =
            (none, { g with finished := true },
              ⟨rest', some (keyFunc x), s.targetKey, some x, s.id⟩) := by
          have hcond : ¬(s.id = g.targetId ∧ some (keyFunc x) = s.targetKey) := by
            intro hc
            exact h hc.1
          simp [grouperNext, hf, hs, hrest, hcond]
        rw [this]
        refine ⟨rfl, rfl, ?_, by simp [hrest], hfin⟩
        intro hc
        rcases hc with hc | hc
        · rw [hs] at hc; exact absurd hc (by simp)
        · exact absurd hc (by simp [hf])
    · have hcond : ¬(s.id = g.targetId ∧ s.currKey = s.targetKey) := by
        intro hc
        exact h hc.1
      have : grouperNext keyFunc g s = (none, { g with finished := true }, s) := by
        simp [grouperNext, hf, hs, hcond]
      rw [this]
      exact ⟨rfl, rfl, fun _ => rfl, by simp, hfin⟩

theorem claim_C2_stale_grouper_witness :
    (2 : Nat) ≠ 1 ∧
    (grouperNext (fun v : Nat => v) ⟨1, true, false⟩
        ⟨[1, 2], some 1, some 1, some 1, 2⟩).1 = none :=
  ⟨by decide,
    (claim_C2_stale_grouper (fun v : Nat => v) ⟨1, true, false⟩
      ⟨[1, 2], some 1, some 1, some 1, 2⟩ (by decide)).1⟩

/-- C3: For every finite source of length `n` and every `r ≤ n`,
`combinations(source, r)` yields exactly `C(n, r)` tuples, each tuple drawn
from strictly increasing source positions, emitted in lexicographic order of
position indices; and for every `r > n` the output sequence is immediately
empty (no error is raised). -/
theorem claim_C3_combinations {α : Type} [Inhabited α] (l : List α) (r : Nat) :
    (r ≤ l.length →
      (combinations l r).length = Nat.choose l.length r ∧
      (∀ c ∈ combinationsIndices l.length r,
        c.length = r ∧ c.Chain' (· < ·) ∧ ∀ x ∈ c, x < l.length) ∧
      (combinationsIndices l.length r).Pairwise (List.Lex (· < ·))) ∧
    (l.length < r → combinations l r = []) := by
  constructor
  · intro h
    refine ⟨?_, ?_, ?_⟩
    · unfold combinations
      rw [List.length_map, combinationsIndices_eq h, combsFrom_length]
      simp
    · intro c hc
      rw [combinationsIndices_eq h] at hc
      obtain ⟨h1, h2, h3⟩ := combsFrom_mem hc
      exact ⟨h1, h2, fun x hx => (h3 x hx).2⟩
    · rw [combinationsIndices_eq h]
      exact combsFrom_sorted _ _
  · intro h
    unfold combinations combinationsIndices
    rw [if_pos h]
    rfl

theorem claim_C3_witness :
    (3 ≤ 5 ∧ (combinations [10, 20, 30, 40, 50] 3).length = Nat.choose 5 3) ∧
    (5 < 7 ∧ combinations [10, 20, 30, 40, 50] 7 = []) :=
  ⟨⟨by decide, ((claim_C3_combinations [10, 20, 30, 40, 50] 3).1 (by decide)).1⟩,
   ⟨by decide, (claim_C3_combinations [10, 20, 30, 40, 50] 7).2 (by decide)⟩⟩

/-- C4: For every finite source of length `n ≥ 0` and every `r ≥ 0`,
`combinationsWithReplacement(source, r)` yields exactly `C(n+r-1, r)` tuples
when `n > 0`, exactly one empty tuple when `n = 0` and `r = 0`, and zero
tuples when `n = 0` and `r > 0`; its tuples are emitted in lexicographic
order of position indices, so `combinationsWithReplacement("ABCD", 2)`
yields exactly `AA AB AC AD BB BC BD CC CD DD` in that order. -/
theorem claim_C4_cwr {α : Type} [Inhabited α] (l : List α) (r : Nat) :
    (0 < l.length →
      (combinationsWithReplacement l r).length = Nat.choose (l.length + r - 1) r) ∧
    (l.length = 0 → r = 0 → combinationsWithReplacement l r = [[]]) ∧
    (l.length = 0 → 0 < r → combinationsWithReplacement l r = []) ∧
    (cwrIndices l.length r).Pairwise (List.Lex (· < ·)) ∧
    combinationsWithReplacement ['A', 'B', 'C', 'D'] 2 =
      [['A', 'A'], ['A', 'B'], ['A', 'C'], ['A', 'D'], ['B', 'B'], ['B', 'C'],
       ['B', 'D'], ['C', 'C'], ['C', 'D'], ['D', 'D']] := by
  refine ⟨?_, ?_, ?_, ?_, by decide⟩
  · intro h
    unfold combinationsWithReplacement
    rw [List.length_map, cwrIndices_eq h, cwrFrom_length r 0 h]
    congr 1
    omega
  · intro hn hr
    subst hr
    unfold combinationsWithReplacement
    rw [hn]
    rfl
  · intro hn hr
    unfold combinationsWithReplacement cwrIndices
    rw [hn, if_pos ⟨rfl, by omega⟩]
    rfl
  · by_cases hn : 0 < l.length
    · rw [cwrIndices_eq hn]
      exact cwrFrom_sorted _ _
    · have h0 : l.length = 0 := by omega
      rw [h0]
      cases r with
      | zero =>
        show (cwrIndices 0 0).Pairwise _
        rw [show cwrIndices 0 0 = [[]] from rfl]
        simp
      | succ r =>
        show (cwrIndices 0 (r + 1)).Pairwise _
        rw [show cwrIndices 0 (r + 1) = [] by
          unfold cwrIndices
          rw [if_pos ⟨rfl, by omega⟩]]
        simp

theorem claim_C4_witness :
    (0 < 4 ∧
      (combinationsWithReplacement ['A', 'B', 'C', 'D'] 2).length =
        Nat.choose (4 + 2 - 1) 2) ∧
    combinationsWithReplacement ([] : List Nat) 0 = [[]] ∧
    (0 < 3 ∧ combinationsWithReplacement ([] : List Nat) 3 = []) :=
  ⟨⟨by decide, (claim_C4_cwr ['A', 'B', 'C', 'D'] 2).1 (by decide)⟩,
   (claim_C4_cwr ([] : List Nat) 0).2.1 rfl rfl,
   ⟨by decide, (claim_C4_cwr ([] : List Nat) 3).2.2.1 rfl (by decide)⟩⟩

/-- C9: Throughout any enumeration by `combinations` over a snapshot of
length `n`, the `r`-element index tuple is strictly increasing with every
value in `[0, n)` at each yield; throughout any enumeration by
`combinationsWithReplacement`, the index tuple is non-decreasing with every
value in `[0, n)` at each yield. -/
theorem claim_C9_index_invariants (n r : Nat) :
    (∀ c ∈ combinationsIndices n r,
      c.length = r ∧ c.Chain' (· < ·) ∧ ∀ x ∈ c, x < n) ∧
    (∀ c ∈ cwrIndices n r,
      c.length = r ∧ c.Chain' (· ≤ ·) ∧ ∀ x ∈ c, x < n) := by
  constructor
  · intro c hc
    by_cases h : r ≤ n
    · rw [combinationsIndices_eq h] at hc
      obtain ⟨h1, h2, h3⟩ := combsFrom_mem hc
      exact ⟨h1, h2, fun x hx => (h3 x hx).2⟩
    · unfold combinationsIndices at hc
      rw [if_pos (by omega)] at hc
      simp at hc
  · intro c hc
    by_cases h : 0 < n
    · rw [cwrIndices_eq h] at hc
      obtain ⟨h1, h2, h3⟩ := cwrFrom_mem hc
      exact ⟨h1, h2, fun x hx => (h3 x hx).2⟩
    · have h0 : n = 0 := by omega
      subst h0
      cases r with
      | zero =>
        rw [show cwrIndices 0 0 = [[]] from rfl] at hc
        obtain rfl : c = [] := by simpa using hc
        simp
      | succ r =>
        rw [show cwrIndices 0 (r + 1) = [] by
          unfold cwrIndices
          rw [if_pos ⟨rfl, by omega⟩]] at hc
        simp at hc

theorem claim_C9_witness :
    ([0, 2] ∈ combinationsIndices 3 2 ∧
      ([0, 2].length = 2 ∧ [0, 2].Chain' (· < ·) ∧ ∀ x ∈ [0, 2], x < 3)) ∧
    ([1, 1] ∈ cwrIndices 2 2 ∧
      ([1, 1].length = 2 ∧ [1, 1].Chain' (· ≤ ·) ∧ ∀ x ∈ [1, 1], x < 2)) :=
  ⟨⟨by decide, (claim_C9_index_invariants 3 2).1 [0, 2] (by decide)⟩,
   ⟨by decide, (claim_C9_index_invariants 2 2).2 [1, 1] (by decide)⟩⟩

/-- C5: For every `n ≥ 1` finite sources with minimum length `m`, `zip`
yields exactly `m` tuples, where the `k`-th tuple holds the `k`-th element
of each source in order; it terminates as soon as any source signals
end-of-sequence at a position, and no partial tuple is yielded for that
position. -/
theorem claim_C5_zip {α : Type} [Inhabited α] (ls : List (List α)) (m fuel : Nat)
    (hne : ls ≠ []) (hlow : ∀ l ∈ ls, m ≤ l.length) (hex : ∃ l ∈ ls, l.length = m)
    (hfuel : m < fuel) :
    (zip fuel ls).length = m ∧
    zip fuel ls = (List.range m).map fun k => ls.map fun l => l.getD k default := by
  have h := zip_eq m ls fuel hne hlow hex hfuel
  exact ⟨by rw [h]; simp, h⟩

theorem claim_C5_witness :
    (([[1, 2, 3], [4, 5]] : List (List Nat)) ≠ [] ∧ 2 < 3) ∧
    (zip 3 ([[1, 2, 3], [4, 5]] : List (List Nat))).length = 2 :=
  ⟨⟨by decide, by decide⟩,
   (claim_C5_zip [[1, 2, 3], [4, 5]] 2 3 (by decide)
     (by decide) ⟨[4, 5], by decide, by decide⟩ (by decide)).1⟩

/-- C6: For every `n ≥ 1` finite sources with maximum length `M`,
`zipLongest` yields exactly `M` tuples; for each position, every slot whose
source is already exhausted holds the designated missing placeholder
(`undefined`, modelled `none`) while every slot whose source is not
exhausted holds that source's element at that position, and the whole
sequence terminates only when all sources are exhausted. -/
theorem claim_C6_zipLongest {α : Type} (ls : List (List α)) (M fuel : Nat)
    (hne : ls ≠ []) (hup : ∀ l ∈ ls, l.length ≤ M) (hex : ∃ l ∈ ls, l.length = M)
    (hfuel : M < fuel) :
    (zipLongest fuel ls).length = M ∧
    zipLongest fuel ls = ((List.range M).map fun k => ls.map fun l => l[k]?) ∧
    (∀ (l : List α) (k : Nat), l.length ≤ k → l[k]? = none) ∧
    (∀ (l : List α) (k : Nat) (hk : k < l.length), l[k]? = some l[k]) := by
  have h := zipLongest_eq M ls fuel hne hup hex hfuel
  exact ⟨by rw [h]; simp, h, fun l k hk => List.getElem?_eq_none hk,
    fun l k hk => List.getElem?_eq_getElem hk⟩

theorem claim_C6_witness :
    (([[1], [2, 3]] : List (List Nat)) ≠ [] ∧ 2 < 3) ∧
    zipLongest 3 ([[1], [2, 3]] : List (List Nat)) =
      [[some 1, some 2], [none, some 3]] := by
  refine ⟨⟨by decide, by decide⟩, ?_⟩
  rw [(claim_C6_zipLongest [[1], [2, 3]] 2 3 (by decide) (by decide)
    ⟨[2, 3], by decide, by decide⟩ (by decide)).2.1]
  decide

/-- C10: When called with zero sources, `zipLongest` terminates immediately
and yields no tuples, whereas `zip` never terminates: every pull of `zip`
with zero sources yields an empty tuple — with any budget of `fuel` loop
iterations it yields exactly `fuel` empty tuples. -/
theorem claim_C10_zero_sources (α : Type) [Inhabited α] :
    (∀ fuel, zipLongest fuel ([] : List (List α)) = []) ∧
    (∀ fuel, zip fuel ([] : List (List α)) = List.replicate fuel []) := by
  constructor
  · intro fuel
    cases fuel with
    | zero => rfl
    | succ fuel => simp [zipLongest]
  · intro fuel
    induction fuel with
    | zero => rfl
    | succ fuel ih =>
      show (if ([] : List (List α)).any (fun l => l.isEmpty) then []
        else (([] : List (List α)).map fun l => l.headD default) ::
          zip fuel (([] : List (List α)).map List.tail)) = _
      rw [if_neg (by simp)]
      show [] :: zip fuel ([] : List (List α)) = _
      rw [ih, List.replicate_succ]

theorem isliceChecked_nonneg {α : Type _} (l : List α) (s st : Nat) (eo : Option Nat)
    (hst : 0 < st) :
    isliceChecked l (s : Int) (eo.map fun e => (e : Int)) (st : Int) =
      .ok (isliceCore l s eo st) := by
  unfold isliceChecked
  have hend : endNegB (eo.map fun e => (e : Int)) = false := by
    cases eo with
    | none => rfl
    | some e =>
      show endNegB (some (e : Int)) = false
      simp only [endNegB, decide_eq_false_iff_not]
      omega
  rw [if_neg (by omega), hend, if_neg (by simp), if_neg (by omega), Int.toNat_ofNat,
    Int.toNat_ofNat]
  congr 2
  cases eo with
  | none => rfl
  | some e =>
    show some (Int.toNat (e : Int)) = some e
    rw [Int.toNat_ofNat]

/-- C7: For every source and every valid `(start, end, step)` with
`start ≥ 0`, `end ≥ 0` (or unbounded), `step > 0`,
`islice(source, start, end, step)` yields exactly the elements of the
source at zero-based absolute positions `start, start + step, ...` that are
`< end`, in source order, stopping when the source is exhausted; the
single-argument form `islice(source, k)` is equivalent to
`islice(source, 0, k, 1)`; and `islice` over `range(0, 100)` with
`(2, 10, 3)` yields `[2, 5, 8]`. -/
theorem claim_C7_islice :
    (∀ (α : Type) (l : List α) (s st : Nat) (eo : Option Nat), 0 < st →
      islice l (s : Int) (eo.map fun e => (e : Int)) (some (st : Int)) =
        .ok ((l.enum.filter fun q => selB s st eo q.1).map Prod.snd)) ∧
    (∀ (α : Type) (l : List α) (k : Nat),
      islice l (k : Int) none none = islice l 0 (some (k : Int)) (some 1)) ∧
    islice (List.range 100) 2 (some 10) (some 3) = .ok [2, 5, 8] := by
  refine ⟨?_, ?_, rfl⟩
  · intro α l s st eo hst
    cases eo with
    | none =>
      exact (isliceChecked_nonneg l s st none hst).trans
        (congrArg Except.ok (isliceCore_eq l s st none hst))
    | some e =>
      exact (isliceChecked_nonneg l s st (some e) hst).trans
        (congrArg Except.ok (isliceCore_eq l s st (some e) hst))
  · intro α l k
    show (if (k : Int) < 0 then Except.error "k param must be non-negative or undefined"
      else isliceChecked l 0 (some (k : Int)) 1) = isliceChecked l 0 (some (k : Int)) 1
    rw [if_neg (by omega)]

theorem claim_C7_witness :
    0 < 3 ∧
    islice (List.range 10) ((2 : Nat) : Int)
        ((some (8 : Nat)).map fun e => (e : Int)) (some ((3 : Nat) : Int)) =
      .ok ((((List.range 10).enum.filter fun q => selB 2 3 (some 8) q.1).map Prod.snd)) :=
  ⟨by decide, claim_C7_islice.1 Nat (List.range 10) 2 3 (some 8) (by decide)⟩

/-- C8, counterexample: `islice` is a generator function, so the call
expression `islice([5,6], -1)` itself raises nothing — the generator is
allocated with the body, validation included, not yet run.  The
invalid-argument error therefore does not occur "synchronously at call
time"; it surfaces on the first pull (and no element is yielded first). -/
theorem claim_C8_counterexample :
    (isliceInvocation ([5, 6] : List Nat) (-1) none none).callResult = .ok () ∧
    (isliceInvocation ([5, 6] : List Nat) (-1) none none).raised =
      some "k param must be non-negative or undefined" ∧
    (isliceInvocation ([5, 6] : List Nat) (-1) none none).yields = [] :=
  ⟨rfl, rfl, rfl⟩

theorem isliceChecked_invalid {α : Type _} (start : Int) (eo : Option Int) (step : Int)
    (h : start < 0 ∨ endNegB eo = true ∨ step ≤ 0) :
    ∃ msg, ∀ l : List α, isliceChecked l start eo step = .error msg := by
  by_cases h1 : start < 0
  · refine ⟨"start param must be non-negative or undefined", fun l => ?_⟩
    unfold isliceChecked
    rw [if_pos h1]
  · by_cases h2 : endNegB eo = true
    · refine ⟨"end param must be non-negative or undefined", fun l => ?_⟩
      unfold isliceChecked
      rw [if_neg h1, if_pos h2]
    · have h3 : step ≤ 0 := by tauto
      refine ⟨"step param must be positive or undefined", fun l => ?_⟩
      unfold isliceChecked
      rw [if_neg h1, if_neg h2, if_pos h3]

theorem islice_invalid {α : Type _} (so : Int) (ev sv : Option Int)
    (h : so < 0 ∨ (∃ e, ev = some e ∧ e < 0) ∨ (∃ st, sv = some st ∧ st ≤ 0)) :
    ∃ msg, ∀ l : List α, islice l so ev sv = .error msg := by
  cases ev with
  | none =>
    cases sv with
    | none =>
      have hso : so < 0 := by
        rcases h with h | ⟨e, he, -⟩ | ⟨st, hst, -⟩
        · exact h
        · simp at he
        · simp at hst
      refine ⟨"k param must be non-negative or undefined", fun l => ?_⟩
      show (if so < 0 then Except.error "k param must be non-negative or undefined"
        else isliceChecked l 0 (some so) 1) = _
      rw [if_pos hso]
    | some st =>
      have h' : so < 0 ∨ endNegB (none : Option Int) = true ∨ st ≤ 0 := by
        rcases h with h | ⟨e, he, -⟩ | ⟨st', hst, hst'⟩
        · exact Or.inl h
        · simp at he
        · obtain rfl : st' = st := by simpa using hst.symm
          exact Or.inr (Or.inr hst')
      obtain ⟨msg, hmsg⟩ := @isliceChecked_invalid α so none st h'
      exact ⟨msg, fun l => hmsg l⟩
  | some e =>
    have h' : so < 0 ∨ endNegB (some e) = true ∨ sv.getD 1 ≤ 0 := by
      rcases h with h | ⟨e', he, hlt⟩ | ⟨st, hst, hle⟩
      · exact Or.inl h
      · obtain rfl : e' = e := by simpa using he.symm
        refine Or.inr (Or.inl ?_)
        simp only [endNegB, decide_eq_true_eq]
        omega
      · rw [hst]
        exact Or.inr (Or.inr hle)
    obtain ⟨msg, hmsg⟩ := @isliceChecked_invalid α so (some e) (sv.getD 1) h'
    exact ⟨msg, fun l => hmsg l⟩

/-- C8, amended: for every argument triple where `start < 0`, `end < 0`, or
`step ≤ 0`, calling `islice` succeeds (the `function*` call runs no body
code); the invalid-argument error is raised on the first pull of the
returned sequence, before any element of the source is pulled — the outcome
is independent of the source — and the operation yields no element before
raising. -/
theorem claim_C8_islice_invalid {α : Type} (l : List α) (so : Int) (ev sv : Option Int)
    (h : so < 0 ∨ (∃ e, ev = some e ∧ e < 0) ∨ (∃ st, sv = some st ∧ st ≤ 0)) :
    (isliceInvocation l so ev sv).callResult = .ok () ∧
    (∃ msg, (isliceInvocation l so ev sv).raised = some msg) ∧
    (isliceInvocation l so ev sv).yields = [] ∧
    isliceInvocation l so ev sv = isliceInvocation ([] : List α) so ev sv := by
  obtain ⟨msg, hmsg⟩ := @islice_invalid α so ev sv h
  unfold isliceInvocation
  rw [hmsg l, hmsg []]
  exact ⟨rfl, ⟨msg, rfl⟩, rfl, rfl⟩

theorem claim_C8_islice_invalid_witness :
    (∃ e, some (-3 : Int) = some e ∧ e < 0) ∧
    (isliceInvocation ([7] : List Nat) 0 (some (-3)) none).callResult = .ok () ∧
    (∃ msg, (isliceInvocation ([7] : List Nat) 0 (some (-3)) none).raised = some msg) ∧
    (isliceInvocation ([7] : List Nat) 0 (some (-3)) none).yields = [] :=
  ⟨⟨-3, rfl, by decide⟩,
   (claim_C8_islice_invalid [7] 0 (some (-3)) none (Or.inr (Or.inl ⟨-3, rfl, by decide⟩))).1,
   (claim_C8_islice_invalid [7] 0 (some (-3)) none (Or.inr (Or.inl ⟨-3, rfl, by decide⟩))).2.1,
   (claim_C8_islice_invalid [7] 0 (some (-3)) none
     (Or.inr (Or.inl ⟨-3, rfl, by decide⟩))).2.2.1⟩

end Itertools
